import Mathlib

/-!
A verification development for the `llvm-brainfuck` compiler.

The development shallowly embeds the two core stages of the compiler:

* the peephole optimizer of `src/bf.rs` (`InstructionList::push` and
  `optimize`), and
* the code generator of `src/main.rs` (`compile`), modelled as the trace
  of LLVM-builder emissions it performs together with its explicit state
  (loop-context stack, `loop_abort_depth`, lazily created abort block,
  fresh-basic-block counter).

Integer payloads are modelled as `Int` with explicit two's-complement
wrapping (`wrap8` for the `i8` cell payloads, `wrap64` for the `i64`
pointer payloads), matching the wrapping arithmetic of the released
program and the data model of the specification.  The runtime effect of
the generated code on the 32-bit index variable under the `Wrap`
overflow policy is modelled by `wrapIndexStep`/`runWrapIndex`.
-/

namespace LlvmBrainfuck

/-- The instruction set, from `src/bf.rs` (`enum BfInstruction`).
`SetValue`/`AddValue` carry an `i8` payload and `SetPointer`/`AddPointer`
an `i64` payload; both are modelled as `Int`, wrapped at every
arithmetic operation. -/
inductive BfInstruction where
  | SetValue (v : Int)
  | SetPointer (v : Int)
  | AddValue (v : Int)
  | AddPointer (v : Int)
  | Input
  | Output
  | BeginLoop
  | EndLoop
deriving DecidableEq, Repr

open BfInstruction

/-- Two's-complement wrapping of an integer into the `i8` range
`[-128, 127]`: the result of Rust's wrapping `i8` addition. -/
def wrap8 (x : Int) : Int := (x + 128) % 256 - 128

/-- Two's-complement wrapping of an integer into the `i64` range:
the result of Rust's wrapping `i64` addition. -/
def wrap64 (x : Int) : Int := (x + 2 ^ 63) % 2 ^ 64 - 2 ^ 63

/-- The optimizer state, from `src/bf.rs` (`struct InstructionList`).
`list` holds the emitted instructions MOST RECENT FIRST (the reverse of
the Rust `Vec`, so that `Vec::last` is the head of `list` and
`Vec::pop` drops the head); `loop_comment_depth` is the suppression
counter. -/
structure InstructionList where
  list : List BfInstruction
  loop_comment_depth : Nat
deriving DecidableEq, Repr

/-- Rank entering the termination measure of `push`: the only
same-length recursive call of the source (arm `(EndLoop, AddValue)`,
which re-pushes a `SetValue`) strictly decreases it. -/
def insnRank : BfInstruction → Nat
  | AddValue _ => 1
  | _ => 0

/-- `InstructionList::push` from `src/bf.rs` lines 49-145, written with
an explicit recursion-fuel parameter so that the definition is
structurally recursive and computable by the kernel.  The fuel is an
upper bound on the recursion depth; `pushF_adequate` proves any
sufficient fuel gives the same result, and `push` below instantiates it
with the termination measure of the source recursion plus one.

The arms mirror the source `match` over `(self.list.last(), insn)`; the
list is kept most recent first, so popping the last element is dropping
the head.  The source arm `(_, AddValue(0))` (skip) is the outer `if`.
The odd-loop rule's guard `self.list.get(self.list.len() - 2) ==
Some(&BeginLoop)` is the nested match on the tail (a failed guard falls
through to `push_internal`, whose result is inlined there), and its
`value % 2 != 0` guard is the inner `if`.  The source's literal-payload
arms `(Some(EndLoop), SetValue(0))` and `(Some(SetValue(0)),
BeginLoop)` appear as `if` tests inside the corresponding arm, with the
`else` branch being the source's fall through to `push_internal`.  The
final catch-all arm is `push_internal` (which appends the
instruction). -/
def pushF : Nat → InstructionList → BfInstruction → InstructionList
  | 0, s, _ => s
  -- suppression mode (`loop_comment_depth != 0`), lines 51-58
  | _ + 1, ⟨l, d + 1⟩, insn =>
    match insn with
    | BeginLoop => ⟨l, d + 2⟩
    | EndLoop => ⟨l, d⟩
    | _ => ⟨l, d + 1⟩
  | f + 1, ⟨l, 0⟩, insn =>
    -- `(_, AddValue(0))`: skip instruction
    if insn = AddValue 0 then ⟨l, 0⟩
    else
      match l, insn with
      -- `value += a; value += b; => value += a + b;`
      | AddValue value :: rest, AddValue other =>
          pushF f ⟨rest, 0⟩ (AddValue (wrap8 (value + other)))
      -- `value = a; value += b; => value = a + b;`
      | SetValue value :: rest, AddValue other =>
          pushF f ⟨rest, 0⟩ (SetValue (wrap8 (value + other)))
      -- `value = a; value = b;` / `value += a; value = b; => value = b;`
      | SetValue _ :: rest, SetValue c => pushF f ⟨rest, 0⟩ (SetValue c)
      | AddValue _ :: rest, SetValue c => pushF f ⟨rest, 0⟩ (SetValue c)
      -- `ptr += a; ptr += b; => ptr += a + b;`
      | AddPointer value :: rest, AddPointer other =>
          pushF f ⟨rest, 0⟩ (AddPointer (wrap64 (value + other)))
      -- `ptr = a; ptr += b; => ptr = a + b;`
      | SetPointer value :: rest, AddPointer other =>
          pushF f ⟨rest, 0⟩ (SetPointer (wrap64 (value + other)))
      -- `ptr = a; ptr = b;` / `ptr += a; ptr = b; => ptr = b;`
      | SetPointer _ :: rest, SetPointer c => pushF f ⟨rest, 0⟩ (SetPointer c)
      | AddPointer _ :: rest, SetPointer c => pushF f ⟨rest, 0⟩ (SetPointer c)
      -- `while(value) value--; => value = 0;`  (lines 107-114)
      | AddValue value :: rest, EndLoop =>
          match rest with
          | BeginLoop :: rest2 =>
              if value % 2 ≠ 0 then pushF f ⟨rest2, 0⟩ (SetValue 0)
              else ⟨EndLoop :: AddValue value :: BeginLoop :: rest2, 0⟩
          | _ => ⟨EndLoop :: AddValue value :: rest, 0⟩
      -- `while(value != 0) { ... }; value += a; => ...; value = a;`
      | EndLoop :: rest, AddValue value =>
          pushF f ⟨EndLoop :: rest, 0⟩ (SetValue value)
      -- `while(value != 0) { ... }; value = 0; => while(value != 0) { ... };`
      | EndLoop :: rest, SetValue c =>
          if c = 0 then ⟨EndLoop :: rest, 0⟩ else ⟨SetValue c :: EndLoop :: rest, 0⟩
      -- dead-loop elision: enter suppression (lines 126-131)
      | SetValue a :: rest, BeginLoop =>
          if a = 0 then ⟨SetValue a :: rest, 1⟩ else ⟨BeginLoop :: SetValue a :: rest, 0⟩
      | EndLoop :: rest, BeginLoop => ⟨EndLoop :: rest, 1⟩
      -- `push_internal`
      | l, insn => ⟨insn :: l, 0⟩

/-- The termination measure of the source recursion of
`InstructionList::push`: every recursive call strictly decreases it. -/
def pushMeasure (s : InstructionList) (insn : BfInstruction) : Nat :=
  2 * s.list.length + insnRank insn

/-- `InstructionList::push`: `pushF` run with provably sufficient fuel. -/
def push (s : InstructionList) (insn : BfInstruction) : InstructionList :=
  pushF (pushMeasure s insn + 1) s insn

/-- `optimize` from `src/bf.rs` lines 26-32: fold every input
instruction through `push` starting from an empty `InstructionList` and
return the emitted list, reversed back into source order. -/
def optimize (input : List BfInstruction) : List BfInstruction :=
  (input.foldl push ⟨[], 0⟩).list.reverse

/-- Canonical form of the optimizer's internal (most recent first)
emitted list: every element was appended by a `push` that fired no
rewrite rule.  `canonR` is the inductive invariant behind idempotence:
the output of `optimize` satisfies it, and re-optimizing a list whose
reversal satisfies it reproduces the list. -/
def canonR : List BfInstruction → Prop
  | [] => True
  | insn :: rest => canonR rest ∧ push ⟨rest, 0⟩ insn = ⟨insn :: rest, 0⟩

/-- The overflow policy, from `src/main.rs` (`MemoryOverflowBehaviour`,
referenced through `bf::MemoryOverflowBehaviour::*` with variants
`Undefined`, `Wrap` and `Abort`). -/
inductive MemoryOverflowBehaviour where
  | Undefined
  | Wrap
  | Abort
deriving DecidableEq, Repr

/-- The machine configuration, with the four fields `src/main.rs`
reads: `cache_size` (u64), the instruction sequence, the overflow
policy and the debug-instrumentation flag. -/
structure BfMachine where
  cache_size : Nat
  instructions : List BfInstruction
  memory_overflow : MemoryOverflowBehaviour
  emit_debug_log : Bool
deriving DecidableEq, Repr

/-- One LLVM-builder emission of `compile` in `src/main.rs`.  Constant
construction (`const_signed_int`/`const_unsigned_int`) emits no
instruction and is not recorded. -/
inductive Emit where
  | alloca | store | load | add | icmp | gep | urem | udiv | trunc | phi
  | br | condBr | callFn (f : String) | ret | retVoid
deriving DecidableEq, Repr

/-- `struct LoopContext` of `src/main.rs`: the header/footer basic-block
pair of one open loop (blocks are identified by the order of their
creation). -/
structure LoopContext where
  loop_header_bb : Nat
  loop_footer_bb : Nat
deriving DecidableEq, Repr

/-- The generator state threaded through the instruction loop of
`compile` in `src/main.rs`: the emission trace so far, the mutable
locals `loop_stack`, `loop_abort_depth` and `abort_bb` (lines 132-134),
a counter handing out fresh basic-block ids, and the current block
`bb`. -/
structure CompileState where
  events : List Emit
  loop_stack : List LoopContext
  loop_abort_depth : Nat
  abort_bb : Option Nat
  next_bb : Nat
  bb : Nat
deriving DecidableEq, Repr

/-- The emissions of the prologue of `compile` (lines 47-129): the
`malloc` call, the two `Var::alloc`s (index and cell pointer), and the
memory-clearing loop.  Blocks created: `entry`, `clear-loop-cond`,
`clear-loop-body`, `bf-begin` (ids 0-3). -/
def prologueEvents : List Emit :=
  [.callFn "malloc", .alloca, .store, .load, .gep, .alloca, .store,
   .br, .phi, .icmp, .condBr, .gep, .store, .add, .br]

/-- The generator state right after the prologue, at the top of the
instruction loop (line 139). -/
def initState : CompileState :=
  { events := prologueEvents, loop_stack := [], loop_abort_depth := 0,
    abort_bb := none, next_bb := 4, bb := 3 }

/-- The per-instruction debug-log emissions (lines 153-157): load the
index variable, call `debug_log`. -/
def debugCallEvents (m : BfMachine) : List Emit :=
  if m.emit_debug_log then [.load, .callFn "debug_log"] else []

/-- The extra debug-log call inside `AddPointer` lowering (lines
179-182); the index operand is an SSA value, so only the call is
emitted. -/
def apDebugEvents (m : BfMachine) : List Emit :=
  if m.emit_debug_log then [.callFn "debug_log"] else []

/-- The lowering of one instruction, from the `match *insn` of
`compile` (lines 159-257), together with the debug-log prefix of lines
153-157.  `EndLoop` with an empty `loop_stack` is the source's
`.expect(...)` panic (lines 246-250), modelled as `Except.error`
carrying the state at the moment of the abort.  The source `match` has
no `SetPointer` arm (`SetPointer` is produced only by a commented-out
optimization and never reaches the generator), so reaching it cannot
return normally; the model maps it to the fatal outcome as well.  Under
the `Abort` policy, a fresh `check_success` block is created first and
the shared `check_abort` block is created lazily on first need (lines
187-199). -/
def emitInsn (m : BfMachine) (s : CompileState) (insn : BfInstruction) :
    Except CompileState CompileState :=
  let s := {s with events := s.events ++ debugCallEvents m}
  match insn with
  | SetValue _ => .ok {s with events := s.events ++ [.load, .store]}
  | AddValue _ => .ok {s with events := s.events ++ [.load, .load, .add, .load, .store]}
  | SetPointer _ => .error s
  | AddPointer _ =>
      match m.memory_overflow with
      | .Undefined =>
          .ok {s with events := s.events ++ [.load, .add] ++ apDebugEvents m
                        ++ [.store, .gep, .store]}
      | .Wrap =>
          .ok {s with events := s.events ++ [.load, .add] ++ apDebugEvents m
                        ++ [.urem, .store, .gep, .store]}
      | .Abort =>
          let success_bb := s.next_bb
          let s := {s with next_bb := s.next_bb + 1}
          let s := if s.abort_bb = none
            then {s with abort_bb := some s.next_bb, next_bb := s.next_bb + 1} else s
          .ok {s with events := s.events ++ [.load, .add] ++ apDebugEvents m
                        ++ [.icmp, .condBr, .store, .gep, .store],
                      bb := success_bb}
  | Input => .ok {s with events := s.events ++ [.callFn "getchar", .load, .store]}
  | Output => .ok {s with events := s.events ++ [.load, .load, .callFn "putchar"]}
  | BeginLoop =>
      .ok {s with events := s.events ++ [.br, .load, .load, .icmp, .condBr],
                  next_bb := s.next_bb + 3, bb := s.next_bb + 1,
                  loop_stack := ⟨s.next_bb, s.next_bb + 2⟩ :: s.loop_stack}
  | EndLoop =>
      match s.loop_stack with
      | [] => .error s
      | context :: stack =>
          .ok {s with events := s.events ++ [.br], loop_stack := stack,
                      bb := context.loop_footer_bb}

/-- One iteration of the instruction loop of `compile` (lines 139-151
plus the lowering): when `loop_abort_depth != 0` the instruction only
adjusts the depth and is skipped, except that an `EndLoop` bringing the
depth back to zero falls through to the lowering of that same
`EndLoop`; at depth zero the instruction is lowered by `emitInsn`.
(Only `EndLoop` can bring a nonzero depth back to zero, so the inner
re-check of `allow_write!` is expressed on the `EndLoop` arm.) -/
def stepInsn (m : BfMachine) (s : CompileState) (insn : BfInstruction) :
    Except CompileState CompileState :=
  if s.loop_abort_depth = 0 then emitInsn m s insn
  else
    match insn with
    | BeginLoop => .ok {s with loop_abort_depth := s.loop_abort_depth + 1}
    | EndLoop =>
        if s.loop_abort_depth - 1 ≠ 0 then
          .ok {s with loop_abort_depth := s.loop_abort_depth - 1}
        else emitInsn m {s with loop_abort_depth := s.loop_abort_depth - 1} insn
    | _ => .ok s

/-- The instruction loop of `compile`: fold `stepInsn` over the
instruction sequence, propagating a fatal abort. -/
def emitInsns (m : BfMachine) : CompileState → List BfInstruction → Except CompileState CompileState
  | s, [] => .ok s
  | s, insn :: rest =>
      match stepInsn m s insn with
      | .error t => .error t
      | .ok t => emitInsns m t rest

/-- The success epilogue of `compile` (lines 260-265): load the current
cell (through the pointer variable), call `free`, return the value. -/
def successEpilogue : List Emit := [.load, .load, .callFn "free", .ret]

/-- The abort-block body of `compile` (lines 267-272): call `free`,
return the sentinel `-1`. -/
def abortEpilogue : List Emit := [.callFn "free", .ret]

/-- The emissions of one `emit_print_char` call (lines 351-376): five
decimal places, each `udiv`, `urem`, `add`, `trunc`, `putchar`. -/
def printCharEvents : List Emit :=
  (List.replicate 5 [Emit.udiv, .urem, .add, .trunc, .callFn "putchar"]).flatten

/-- The body of the shared `debug_log` routine (lines 274-346): a
newline, the instruction index and pointer index as fixed-width
decimal, then a counting loop dumping every cell. -/
def debugBodyEvents : List Emit :=
  [.callFn "putchar"] ++ printCharEvents ++ [.callFn "putchar"] ++ printCharEvents ++
    [.br, .phi, .icmp, .condBr, .gep, .load, .callFn "putchar", .callFn "putchar",
     .add, .br, .callFn "putchar", .retVoid]

/-- `compile` from `src/main.rs` lines 45-349, as the emission trace it
produces: the prologue, the instruction loop, then — when the loop
completes — the success epilogue (guarded by `allow_write!`, line 260),
the abort-block body when an abort block was ever created, and the
`debug_log` body when debug instrumentation is on.  A fatal abort
inside the loop propagates as `Except.error` with the trace at that
point. -/
def compile (m : BfMachine) : Except CompileState CompileState :=
  match emitInsns m initState m.instructions with
  | .error t => .error t
  | .ok s =>
      let s := if s.loop_abort_depth = 0
        then {s with events := s.events ++ successEpilogue} else s
      let s := match s.abort_bb with
        | some _ => {s with events := s.events ++ abortEpilogue}
        | none => s
      let s := if m.emit_debug_log then {s with events := s.events ++ debugBodyEvents} else s
      .ok s

/-- Number of `BeginLoop` instructions in a list. -/
def countBegin : List BfInstruction → Nat
  | [] => 0
  | BeginLoop :: rest => countBegin rest + 1
  | _ :: rest => countBegin rest

/-- Number of `EndLoop` instructions in a list. -/
def countEnd : List BfInstruction → Nat
  | [] => 0
  | EndLoop :: rest => countEnd rest + 1
  | _ :: rest => countEnd rest

/-- Runtime effect of one `AddPointer(v)` on the index variable of a
program generated under the `Wrap` policy, read off the lowering in
`src/main.rs` lines 173-207: the `i64` payload is truncated to the
32-bit `size_type` constant, added to the index with 32-bit wrap-around
(`builder.add` on `i32`), and the sum is reduced by an unsigned
remainder (`builder.urem`) against the 32-bit truncation of
`cache_size`.  The index is viewed as its unsigned 32-bit value. -/
def wrapIndexStep (cache_size idx : Nat) (v : Int) : Nat :=
  ((idx + (v % 4294967296).toNat) % 4294967296) % (cache_size % 4294967296)

/-- The index variable of a `Wrap`-policy program after executing a
sequence of pointer moves, starting from the initial index 0. -/
def runWrapIndex (cache_size : Nat) (moves : List Int) : Nat :=
  moves.foldl (wrapIndexStep cache_size) 0

example : optimize [AddValue 5, AddValue 3] = [AddValue 8] := by decide
example : optimize [SetValue 5, AddValue 3] = [SetValue 8] := by decide
example : optimize [SetValue 5, SetValue 3] = [SetValue 3] := by decide
example : optimize [AddValue 0] = [] := by decide
example : optimize [BeginLoop, AddValue 1, EndLoop] = [SetValue 0] := by decide
example : optimize [SetValue 0, BeginLoop] = [SetValue 0] := by decide

/-- Any sufficient fuel computes the same result: `pushF` is fuel
independent above the termination measure of the source recursion. -/
theorem pushF_adequate : ∀ (f g : Nat) (s : InstructionList) (insn : BfInstruction),
    pushMeasure s insn < f → pushMeasure s insn < g → pushF f s insn = pushF g s insn := by
  intro f
  induction f using Nat.strong_induction_on with
  | _ f IH =>
    intro g s insn hf hg
    cases f with
    | zero => exact absurd hf (Nat.not_lt_zero _)
    | succ f =>
      cases g with
      | zero => exact absurd hg (Nat.not_lt_zero _)
      | succ g =>
        rcases s with ⟨l, d⟩
        cases d with
        | succ d => cases insn <;> rfl
        | zero =>
          by_cases h0 : insn = AddValue 0
          · subst h0; rfl
          · simp only [pushF, if_neg h0]
            split <;> try rfl
            all_goals try (split <;> try rfl)
            all_goals try (split <;> try rfl)
            all_goals
              refine IH f (Nat.lt_succ_self f) g _ _ ?_ ?_ <;>
                (simp only [pushMeasure, insnRank, List.length_cons] at hf hg ⊢; omega)

/-- Sufficient fuel computes `push`. -/
theorem pushF_eq_push {f : Nat} (s : InstructionList) (insn : BfInstruction)
    (h : pushMeasure s insn < f) : pushF f s insn = push s insn :=
  pushF_adequate f (pushMeasure s insn + 1) s insn h (Nat.lt_succ_self _)

/-- The defining equation of `push` at suppression depth zero, with
`push` itself in the recursive positions: the source recursion of
`InstructionList::push`. -/
theorem push_zero_eq (l : List BfInstruction) (insn : BfInstruction) :
    push ⟨l, 0⟩ insn =
      if insn = AddValue 0 then ⟨l, 0⟩
      else
        match l, insn with
        | AddValue value :: rest, AddValue other =>
            push ⟨rest, 0⟩ (AddValue (wrap8 (value + other)))
        | SetValue value :: rest, AddValue other =>
            push ⟨rest, 0⟩ (SetValue (wrap8 (value + other)))
        | SetValue _ :: rest, SetValue c => push ⟨rest, 0⟩ (SetValue c)
        | AddValue _ :: rest, SetValue c => push ⟨rest, 0⟩ (SetValue c)
        | AddPointer value :: rest, AddPointer other =>
            push ⟨rest, 0⟩ (AddPointer (wrap64 (value + other)))
        | SetPointer value :: rest, AddPointer other =>
            push ⟨rest, 0⟩ (SetPointer (wrap64 (value + other)))
        | SetPointer _ :: rest, SetPointer c => push ⟨rest, 0⟩ (SetPointer c)
        | AddPointer _ :: rest, SetPointer c => push ⟨rest, 0⟩ (SetPointer c)
        | AddValue value :: rest, EndLoop =>
            (match rest with
            | BeginLoop :: rest2 =>
                if value % 2 ≠ 0 then push ⟨rest2, 0⟩ (SetValue 0)
                else ⟨EndLoop :: AddValue value :: BeginLoop :: rest2, 0⟩
            | _ => ⟨EndLoop :: AddValue value :: rest, 0⟩)
        | EndLoop :: rest, AddValue value =>
            push ⟨EndLoop :: rest, 0⟩ (SetValue value)
        | EndLoop :: rest, SetValue c =>
            if c = 0 then ⟨EndLoop :: rest, 0⟩ else ⟨SetValue c :: EndLoop :: rest, 0⟩
        | SetValue a :: rest, BeginLoop =>
            if a = 0 then ⟨SetValue a :: rest, 1⟩ else ⟨BeginLoop :: SetValue a :: rest, 0⟩
        | EndLoop :: rest, BeginLoop => ⟨EndLoop :: rest, 1⟩
        | l, insn => ⟨insn :: l, 0⟩ := by
  by_cases h0 : insn = AddValue 0
  · subst h0; rw [if_pos rfl]; rfl
  · rw [if_neg h0]
    conv_lhs => rw [push]
    simp only [pushF, if_neg h0]
    split <;> try rfl
    all_goals try (split <;> try rfl)
    all_goals try (split <;> try rfl)
    all_goals
      exact pushF_eq_push _ _
        (by simp only [pushMeasure, insnRank, List.length_cons]; omega)

/-- In suppression mode a `BeginLoop` increments the depth, an
`EndLoop` decrements it, and every other instruction is discarded,
the emitted list staying unchanged (lines 51-58 of `src/bf.rs`). -/
theorem push_supp (l : List BfInstruction) (d : Nat) (insn : BfInstruction) :
    push ⟨l, d + 1⟩ insn =
      ⟨l, match insn with | BeginLoop => d + 2 | EndLoop => d | _ => d + 1⟩ := by
  cases insn <;> rfl

/-- The `(_, AddValue(0))` rule: an incoming `AddValue 0` is dropped. -/
theorem push_av_zero (l : List BfInstruction) : push ⟨l, 0⟩ (AddValue 0) = ⟨l, 0⟩ := rfl

/-- The `(AddValue, AddValue)` rule. -/
theorem push_av_av (value other : Int) (rest : List BfInstruction) (h : other ≠ 0) :
    push ⟨AddValue value :: rest, 0⟩ (AddValue other) =
      push ⟨rest, 0⟩ (AddValue (wrap8 (value + other))) := by
  rw [push_zero_eq, if_neg (by simpa using h)]

/-- The `(SetValue, AddValue)` rule. -/
theorem push_sv_av (value other : Int) (rest : List BfInstruction) (h : other ≠ 0) :
    push ⟨SetValue value :: rest, 0⟩ (AddValue other) =
      push ⟨rest, 0⟩ (SetValue (wrap8 (value + other))) := by
  rw [push_zero_eq, if_neg (by simpa using h)]

/-- The `(SetValue, SetValue)` rule. -/
theorem push_sv_sv (v c : Int) (rest : List BfInstruction) :
    push ⟨SetValue v :: rest, 0⟩ (SetValue c) = push ⟨rest, 0⟩ (SetValue c) := by
  rw [push_zero_eq]; exact rfl

/-- The `(AddValue, SetValue)` rule. -/
theorem push_av_sv (v c : Int) (rest : List BfInstruction) :
    push ⟨AddValue v :: rest, 0⟩ (SetValue c) = push ⟨rest, 0⟩ (SetValue c) := by
  rw [push_zero_eq]; exact rfl

/-- The `(AddPointer, AddPointer)` rule. -/
theorem push_ap_ap (value other : Int) (rest : List BfInstruction) :
    push ⟨AddPointer value :: rest, 0⟩ (AddPointer other) =
      push ⟨rest, 0⟩ (AddPointer (wrap64 (value + other))) := by
  rw [push_zero_eq]; exact rfl

/-- The `(SetPointer, AddPointer)` rule. -/
theorem push_sp_ap (value other : Int) (rest : List BfInstruction) :
    push ⟨SetPointer value :: rest, 0⟩ (AddPointer other) =
      push ⟨rest, 0⟩ (SetPointer (wrap64 (value + other))) := by
  rw [push_zero_eq]; exact rfl

/-- The `(SetPointer, SetPointer)` rule. -/
theorem push_sp_sp (v c : Int) (rest : List BfInstruction) :
    push ⟨SetPointer v :: rest, 0⟩ (SetPointer c) = push ⟨rest, 0⟩ (SetPointer c) := by
  rw [push_zero_eq]; exact rfl

/-- The `(AddPointer, SetPointer)` rule. -/
theorem push_ap_sp (v c : Int) (rest : List BfInstruction) :
    push ⟨AddPointer v :: rest, 0⟩ (SetPointer c) = push ⟨rest, 0⟩ (SetPointer c) := by
  rw [push_zero_eq]; exact rfl

/-- The odd-loop rule, firing case: with `BeginLoop` two positions back
and an odd `AddValue` payload on top, an incoming `EndLoop` pops both
and re-pushes `SetValue 0`. -/
theorem push_odd_loop (value : Int) (rest : List BfInstruction) (h : value % 2 ≠ 0) :
    push ⟨AddValue value :: BeginLoop :: rest, 0⟩ EndLoop = push ⟨rest, 0⟩ (SetValue 0) := by
  rw [push_zero_eq]
  show (if value % 2 ≠ 0 then push ⟨rest, 0⟩ (SetValue 0)
        else ⟨EndLoop :: AddValue value :: BeginLoop :: rest, 0⟩) = push ⟨rest, 0⟩ (SetValue 0)
  rw [if_pos h]

/-- The odd-loop rule, failed-guard case: an even payload falls through
to `push_internal` and the `EndLoop` is appended. -/
theorem push_even_loop (value : Int) (rest : List BfInstruction) (h : value % 2 = 0) :
    push ⟨AddValue value :: BeginLoop :: rest, 0⟩ EndLoop =
      ⟨EndLoop :: AddValue value :: BeginLoop :: rest, 0⟩ := by
  rw [push_zero_eq]
  show (if value % 2 ≠ 0 then push ⟨rest, 0⟩ (SetValue 0)
        else ⟨EndLoop :: AddValue value :: BeginLoop :: rest, 0⟩) =
      ⟨EndLoop :: AddValue value :: BeginLoop :: rest, 0⟩
  rw [if_neg (by simp [h])]

/-- The `(EndLoop, AddValue)` rule: re-push the payload as a
`SetValue`. -/
theorem push_el_av (value : Int) (rest : List BfInstruction) (h : value ≠ 0) :
    push ⟨EndLoop :: rest, 0⟩ (AddValue value) =
      push ⟨EndLoop :: rest, 0⟩ (SetValue value) := by
  rw [push_zero_eq, if_neg (by simpa using h)]

/-- The `(EndLoop, SetValue(0))` rule: the instruction is dropped. -/
theorem push_el_sv_zero (rest : List BfInstruction) :
    push ⟨EndLoop :: rest, 0⟩ (SetValue 0) = ⟨EndLoop :: rest, 0⟩ := rfl

/-- A nonzero `SetValue` after an `EndLoop` is appended. -/
theorem push_el_sv (c : Int) (rest : List BfInstruction) (h : c ≠ 0) :
    push ⟨EndLoop :: rest, 0⟩ (SetValue c) = ⟨SetValue c :: EndLoop :: rest, 0⟩ := by
  rw [push_zero_eq]
  show (if c = 0 then (⟨EndLoop :: rest, 0⟩ : InstructionList)
        else ⟨SetValue c :: EndLoop :: rest, 0⟩) = ⟨SetValue c :: EndLoop :: rest, 0⟩
  rw [if_neg h]

/-- The `(SetValue(0), BeginLoop)` rule: enter suppression. -/
theorem push_sv0_bl (rest : List BfInstruction) :
    push ⟨SetValue 0 :: rest, 0⟩ BeginLoop = ⟨SetValue 0 :: rest, 1⟩ := rfl

/-- A `BeginLoop` after a nonzero `SetValue` is appended. -/
theorem push_sv_bl (a : Int) (rest : List BfInstruction) (h : a ≠ 0) :
    push ⟨SetValue a :: rest, 0⟩ BeginLoop = ⟨BeginLoop :: SetValue a :: rest, 0⟩ := by
  rw [push_zero_eq]
  show (if a = 0 then (⟨SetValue a :: rest, 1⟩ : InstructionList)
        else ⟨BeginLoop :: SetValue a :: rest, 0⟩) = ⟨BeginLoop :: SetValue a :: rest, 0⟩
  rw [if_neg h]

/-- The `(EndLoop, BeginLoop)` rule: enter suppression. -/
theorem push_el_bl (rest : List BfInstruction) :
    push ⟨EndLoop :: rest, 0⟩ BeginLoop = ⟨EndLoop :: rest, 1⟩ := rfl

/-- `push` preserves the canonical-form invariant of the emitted
list (strong induction over the termination measure of the source
recursion). -/
theorem canonR_push_aux : ∀ (n : Nat) (s : InstructionList) (insn : BfInstruction),
    pushMeasure s insn ≤ n → canonR s.list → canonR (push s insn).list := by
  intro n
  induction n using Nat.strong_induction_on with
  | _ n IH =>
    intro s insn hm hc
    rcases s with ⟨l, d⟩
    cases d with
    | succ d => cases insn <;> exact hc
    | zero =>
      by_cases h0 : insn = AddValue 0
      · subst h0; exact hc
      · rcases l with _ | ⟨head, rest⟩
        · cases insn <;>
            first
              | exact ⟨trivial, rfl⟩
              | (rw [push_zero_eq, if_neg h0]
                 exact ⟨trivial, by rw [push_zero_eq, if_neg h0]; try exact rfl⟩)
        · obtain ⟨hc1, hc2⟩ := hc
          cases head <;> cases insn <;>
            first
              | exact ⟨⟨hc1, hc2⟩, rfl⟩
              | (rw [push_zero_eq, if_neg h0]
                 exact ⟨⟨hc1, hc2⟩, by rw [push_zero_eq, if_neg h0]; try exact rfl⟩)
              | exact ⟨hc1, hc2⟩
              | skip
          all_goals try (
            first
              | rw [push_sv_sv]
              | rw [push_av_sv]
              | rw [push_sp_sp]
              | rw [push_ap_sp]
              | rw [push_ap_ap]
              | rw [push_sp_ap]
              | rw [push_sv_av _ _ _ (by simpa using h0)]
              | rw [push_av_av _ _ _ (by simpa using h0)]
            exact IH _ (by simp only [pushMeasure, insnRank, List.length_cons] at hm ⊢; omega)
              _ _ le_rfl hc1)
          all_goals try (
            rw [push_el_av _ _ (by simpa using h0)]
            exact IH _ (by simp only [pushMeasure, insnRank, List.length_cons] at hm ⊢; omega)
              _ _ le_rfl ⟨hc1, hc2⟩)
          -- remaining: (SetValue a, BeginLoop), (AddValue v, EndLoop), (EndLoop, SetValue c)
          next a =>
            rcases eq_or_ne a 0 with rfl | ha
            · exact ⟨hc1, hc2⟩
            · rw [push_sv_bl _ _ ha]
              exact ⟨⟨hc1, hc2⟩, push_sv_bl _ _ ha⟩
          next v =>
            rcases rest with _ | ⟨h2, rest2⟩
            · exact ⟨⟨hc1, hc2⟩, rfl⟩
            · cases h2 <;> try exact ⟨⟨hc1, hc2⟩, rfl⟩
              rcases eq_or_ne (v % 2) 0 with hv | hv
              · rw [push_even_loop _ _ hv]
                exact ⟨⟨hc1, hc2⟩, push_even_loop _ _ hv⟩
              · rw [push_odd_loop _ _ hv]
                exact IH _
                  (by simp only [pushMeasure, insnRank, List.length_cons] at hm ⊢; omega)
                  _ _ le_rfl hc1.1
          next c =>
            rcases eq_or_ne c 0 with rfl | hcz
            · exact ⟨hc1, hc2⟩
            · rw [push_el_sv _ _ hcz]
              exact ⟨⟨hc1, hc2⟩, push_el_sv _ _ hcz⟩

/-- `push` preserves canonical form. -/
theorem canonR_push (s : InstructionList) (insn : BfInstruction) (hc : canonR s.list) :
    canonR (push s insn).list :=
  canonR_push_aux (pushMeasure s insn) s insn le_rfl hc

/-- Folding pushes preserves canonical form; in particular the output
of `optimize` is canonical. -/
theorem canonR_foldl (input : List BfInstruction) :
    ∀ s : InstructionList, canonR s.list → canonR ((input.foldl push s).list) := by
  induction input with
  | nil => intro s h; exact h
  | cons x rest IH => intro s h; exact IH _ (canonR_push _ _ h)

/-- Re-pushing a canonical list (in source order) reproduces it: every
element appends cleanly. -/
theorem foldl_push_of_canonR : ∀ rl : List BfInstruction, canonR rl →
    rl.reverse.foldl push ⟨[], 0⟩ = ⟨rl, 0⟩ := by
  intro rl
  induction rl with
  | nil => intro _; rfl
  | cons x rest IH =>
      intro h
      rw [List.reverse_cons, List.foldl_append, IH h.1]
      simpa using h.2

/-- A canonical list contains no `AddValue 0`: pushing one is a drop,
never a clean append. -/
theorem canonR_no_av0 : ∀ rl : List BfInstruction, canonR rl → AddValue 0 ∉ rl := by
  intro rl
  induction rl with
  | nil => simp
  | cons x rest IH =>
      intro hc hmem
      rcases List.mem_cons.mp hmem with h | h
      · subst h
        have h2 := hc.2
        rw [push_av_zero] at h2
        have h3 := congrArg (fun s : InstructionList => s.list.length) h2
        simp at h3
      · exact IH hc.1 h

/-- `Emit.ret` is not among the per-instruction debug emissions. -/
theorem ret_notin_debugCall (m : BfMachine) : Emit.ret ∉ debugCallEvents m := by
  cases hm : m.emit_debug_log <;> simp [debugCallEvents, hm]

/-- `Emit.ret` is not among the `AddPointer` debug emissions. -/
theorem ret_notin_apDebug (m : BfMachine) : Emit.ret ∉ apDebugEvents m := by
  cases hm : m.emit_debug_log <;> simp [apDebugEvents, hm]

/-- At suppression depth zero, a step is exactly the lowering. -/
theorem stepInsn_depth_zero (m : BfMachine) (s : CompileState) (insn : BfInstruction)
    (hd : s.loop_abort_depth = 0) : stepInsn m s insn = emitInsn m s insn := by
  unfold stepInsn
  rw [if_pos hd]

/-- Characterization of one generator step at depth zero: either the
fatal `EndLoop`-with-empty-stack abort, or the fatal missing
`SetPointer` arm, or a normal step that appends only non-`ret`
emissions, keeps the depth at zero, and pushes or pops exactly one loop
context for `BeginLoop`/`EndLoop`. -/
theorem stepInsn_char (m : BfMachine) (s : CompileState) (insn : BfInstruction)
    (hd : s.loop_abort_depth = 0) :
    (insn = EndLoop ∧ s.loop_stack = [] ∧
        stepInsn m s insn = .error {s with events := s.events ++ debugCallEvents m}) ∨
    ((∃ v, insn = SetPointer v) ∧
        stepInsn m s insn = .error {s with events := s.events ++ debugCallEvents m}) ∨
    (∃ t, stepInsn m s insn = .ok t ∧
        (∃ evs, Emit.ret ∉ evs ∧ t.events = s.events ++ evs) ∧
        t.loop_abort_depth = 0 ∧
        t.loop_stack.length + (if insn = EndLoop then 1 else 0) =
          s.loop_stack.length + (if insn = BeginLoop then 1 else 0)) := by
  rw [stepInsn_depth_zero _ _ _ hd]
  cases insn with
  | SetValue v =>
      refine Or.inr (Or.inr
        ⟨{s with events := s.events ++ (debugCallEvents m ++ [.load, .store])},
          by simp [emitInsn, List.append_assoc],
          ⟨debugCallEvents m ++ [.load, .store],
            by simp [List.mem_append, ret_notin_debugCall], rfl⟩, hd, by simp⟩)
  | AddValue v =>
      refine Or.inr (Or.inr
        ⟨{s with
            events := s.events ++ (debugCallEvents m ++ [.load, .load, .add, .load, .store])},
          by simp [emitInsn, List.append_assoc],
          ⟨debugCallEvents m ++ [.load, .load, .add, .load, .store],
            by simp [List.mem_append, ret_notin_debugCall], rfl⟩, hd, by simp⟩)
  | SetPointer v =>
      exact Or.inr (Or.inl ⟨⟨v, rfl⟩, by simp [emitInsn]⟩)
  | AddPointer v =>
      cases hpol : m.memory_overflow with
      | Undefined =>
          refine Or.inr (Or.inr
            ⟨{s with
                events := s.events ++ (debugCallEvents m ++ ([.load, .add]
                  ++ apDebugEvents m ++ [.store, .gep, .store]))},
              by simp [emitInsn, hpol, List.append_assoc],
              ⟨debugCallEvents m ++ ([.load, .add] ++ apDebugEvents m
                  ++ [.store, .gep, .store]),
                by simp [List.mem_append, ret_notin_debugCall, ret_notin_apDebug], rfl⟩,
              hd, by simp⟩)
      | Wrap =>
          refine Or.inr (Or.inr
            ⟨{s with
                events := s.events ++ (debugCallEvents m ++ ([.load, .add]
                  ++ apDebugEvents m ++ [.urem, .store, .gep, .store]))},
              by simp [emitInsn, hpol, List.append_assoc],
              ⟨debugCallEvents m ++ ([.load, .add] ++ apDebugEvents m
                  ++ [.urem, .store, .gep, .store]),
                by simp [List.mem_append, ret_notin_debugCall, ret_notin_apDebug], rfl⟩,
              hd, by simp⟩)
      | Abort =>
          by_cases hab : s.abort_bb = none
          · refine Or.inr (Or.inr
              ⟨{s with
                  events := s.events ++ (debugCallEvents m ++ ([.load, .add]
                    ++ apDebugEvents m ++ [.icmp, .condBr, .store, .gep, .store])),
                  next_bb := s.next_bb + 2, abort_bb := some (s.next_bb + 1),
                  bb := s.next_bb},
                by simp [emitInsn, hpol, hab, List.append_assoc],
                ⟨debugCallEvents m ++ ([.load, .add] ++ apDebugEvents m
                    ++ [.icmp, .condBr, .store, .gep, .store]),
                  by simp [List.mem_append, ret_notin_debugCall, ret_notin_apDebug], rfl⟩,
                hd, by simp⟩)
          · refine Or.inr (Or.inr
              ⟨{s with
                  events := s.events ++ (debugCallEvents m ++ ([.load, .add]
                    ++ apDebugEvents m ++ [.icmp, .condBr, .store, .gep, .store])),
                  next_bb := s.next_bb + 1, bb := s.next_bb},
                by simp [emitInsn, hpol, hab, List.append_assoc],
                ⟨debugCallEvents m ++ ([.load, .add] ++ apDebugEvents m
                    ++ [.icmp, .condBr, .store, .gep, .store]),
                  by simp [List.mem_append, ret_notin_debugCall, ret_notin_apDebug], rfl⟩,
                hd, by simp⟩)
  | Input =>
      refine Or.inr (Or.inr
        ⟨{s with
            events := s.events ++ (debugCallEvents m ++ [.callFn "getchar", .load, .store])},
          by simp [emitInsn, List.append_assoc],
          ⟨debugCallEvents m ++ [.callFn "getchar", .load, .store],
            by simp [List.mem_append, ret_notin_debugCall], rfl⟩, hd, by simp⟩)
  | Output =>
      refine Or.inr (Or.inr
        ⟨{s with
            events := s.events ++ (debugCallEvents m ++ [.load, .load, .callFn "putchar"])},
          by simp [emitInsn, List.append_assoc],
          ⟨debugCallEvents m ++ [.load, .load, .callFn "putchar"],
            by simp [List.mem_append, ret_notin_debugCall], rfl⟩, hd, by simp⟩)
  | BeginLoop =>
      refine Or.inr (Or.inr
        ⟨{s with
            events := s.events ++ (debugCallEvents m ++ [.br, .load, .load, .icmp, .condBr]),
            next_bb := s.next_bb + 3, bb := s.next_bb + 1,
            loop_stack := ⟨s.next_bb, s.next_bb + 2⟩ :: s.loop_stack},
          by simp [emitInsn, List.append_assoc],
          ⟨debugCallEvents m ++ [.br, .load, .load, .icmp, .condBr],
            by simp [List.mem_append, ret_notin_debugCall], rfl⟩, hd, by simp⟩)
  | EndLoop =>
      rcases hstk : s.loop_stack with _ | ⟨context, stack⟩
      · exact Or.inl ⟨rfl, rfl, by simp [emitInsn, hstk]⟩
      · refine Or.inr (Or.inr
          ⟨{s with
              events := s.events ++ (debugCallEvents m ++ [.br]),
              loop_stack := stack, bb := context.loop_footer_bb},
            by simp [emitInsn, hstk, List.append_assoc],
            ⟨debugCallEvents m ++ [.br],
              by simp [List.mem_append, ret_notin_debugCall], rfl⟩, hd, by simp [hstk]⟩)

/-- `countBegin` over a cons cell. -/
theorem countBegin_cons (x : BfInstruction) (l : List BfInstruction) :
    countBegin (x :: l) = countBegin l + (if x = BeginLoop then 1 else 0) := by
  cases x <;> simp [countBegin]

/-- `countEnd` over a cons cell. -/
theorem countEnd_cons (x : BfInstruction) (l : List BfInstruction) :
    countEnd (x :: l) = countEnd l + (if x = EndLoop then 1 else 0) := by
  cases x <;> simp [countEnd]

/-- If some prefix of the remaining instructions closes more loops than
it opens (relative to the current stack), the instruction loop aborts
fatally, and no `ret` has been emitted when it does. -/
theorem emitInsns_excess (m : BfMachine) :
    ∀ (insns : List BfInstruction) (s : CompileState),
      Emit.ret ∉ s.events → s.loop_abort_depth = 0 →
      (∃ k, countBegin (insns.take k) + s.loop_stack.length < countEnd (insns.take k)) →
      ∃ t, emitInsns m s insns = .error t ∧ Emit.ret ∉ t.events := by
  intro insns
  induction insns with
  | nil =>
      intro s hs hd hex
      obtain ⟨k, hk⟩ := hex
      simp [countBegin, countEnd] at hk
  | cons insn rest IH =>
      intro s hs hd hex
      rcases stepInsn_char m s insn hd with
          ⟨hinsn, hstk, herr⟩ | ⟨⟨v, hinsn⟩, herr⟩ |
          ⟨t, hok, ⟨evs, hrevs, hevs⟩, htd, hlen⟩
      · exact ⟨{s with events := s.events ++ debugCallEvents m},
          by simp only [emitInsns, herr],
          by simp [List.mem_append, hs, ret_notin_debugCall]⟩
      · exact ⟨{s with events := s.events ++ debugCallEvents m},
          by simp only [emitInsns, herr],
          by simp [List.mem_append, hs, ret_notin_debugCall]⟩
      · have hret : Emit.ret ∉ t.events := by
          rw [hevs]; simp [List.mem_append, hs, hrevs]
        have hex' : ∃ k, countBegin (rest.take k) + t.loop_stack.length
            < countEnd (rest.take k) := by
          obtain ⟨k, hk⟩ := hex
          cases k with
          | zero => simp [countBegin, countEnd] at hk
          | succ k =>
              refine ⟨k, ?_⟩
              rw [List.take_succ_cons, countBegin_cons, countEnd_cons] at hk
              by_cases hb : insn = BeginLoop <;> by_cases he : insn = EndLoop <;>
                simp [hb, he] at hk hlen <;> omega
        obtain ⟨u, hu, hu2⟩ := IH t hret htd hex'
        exact ⟨u, by simp only [emitInsns, hok, hu], hu2⟩

/-- The instruction loop never changes `loop_abort_depth` away from
zero: the skipping branch is unreachable in any run that starts at
depth zero. -/
theorem emitInsns_depth (m : BfMachine) :
    ∀ (insns : List BfInstruction) (s t : CompileState),
      s.loop_abort_depth = 0 → emitInsns m s insns = .ok t → t.loop_abort_depth = 0 := by
  intro insns
  induction insns with
  | nil => intro s t hd h; cases h; exact hd
  | cons insn rest IH =>
      intro s t hd h
      rcases stepInsn_char m s insn hd with
          ⟨hinsn, hstk, herr⟩ | ⟨⟨v, hinsn⟩, herr⟩ |
          ⟨t', hok, _, htd, _⟩
      · rw [show emitInsns m s (insn :: rest)
              = Except.error {s with events := s.events ++ debugCallEvents m} from by
            simp only [emitInsns, herr]] at h
        cases h
      · rw [show emitInsns m s (insn :: rest)
              = Except.error {s with events := s.events ++ debugCallEvents m} from by
            simp only [emitInsns, herr]] at h
        cases h
      · rw [show emitInsns m s (insn :: rest) = emitInsns m t' rest from by
            simp only [emitInsns, hok]] at h
        exact IH t' t htd h

/-- The prologue emits no `ret`. -/
theorem ret_notin_initState : Emit.ret ∉ initState.events := by decide

/-- A prefix with more closers than openers makes `compile` abort
fatally with no `ret` in the trace. -/
theorem compile_excess (m : BfMachine)
    (h : ∃ k, countBegin (m.instructions.take k) < countEnd (m.instructions.take k)) :
    ∃ t, compile m = .error t ∧ Emit.ret ∉ t.events := by
  obtain ⟨k, hk⟩ := h
  obtain ⟨t, ht, hr⟩ := emitInsns_excess m m.instructions initState ret_notin_initState rfl
    ⟨k, by simpa [initState] using hk⟩
  exact ⟨t, by simp only [compile, ht], hr⟩

/-- Every successful compilation ends at depth zero and its trace
contains the success epilogue. -/
theorem compile_ok_epilogue (m : BfMachine) (r : CompileState)
    (h : compile m = .ok r) :
    r.loop_abort_depth = 0 ∧ ∃ pre post, r.events = pre ++ successEpilogue ++ post := by
  rcases hE : emitInsns m initState m.instructions with t | s
  · rw [show compile m = Except.error t from by simp only [compile, hE]] at h
    cases h
  · have hd : s.loop_abort_depth = 0 := emitInsns_depth m m.instructions initState s rfl hE
    rcases hab : s.abort_bb with _ | ab <;> cases hdbg : m.emit_debug_log
    · have hc : compile m = .ok {s with events := s.events ++ successEpilogue} := by
        simp [compile, hE, hd, hab, hdbg]
      rw [hc] at h
      cases h
      exact ⟨hd, s.events, [], by simp⟩
    · have hc : compile m
          = .ok {s with events := s.events ++ (successEpilogue ++ debugBodyEvents)} := by
        simp [compile, hE, hd, hab, hdbg, List.append_assoc]
      rw [hc] at h
      cases h
      exact ⟨hd, s.events, debugBodyEvents, by simp⟩
    · have hc : compile m
          = .ok {s with events := s.events ++ (successEpilogue ++ abortEpilogue)} := by
        simp [compile, hE, hd, hab, hdbg, List.append_assoc]
      rw [hc] at h
      cases h
      exact ⟨hd, s.events, abortEpilogue, by simp⟩
    · have hc : compile m
          = .ok {s with
              events := s.events ++ (successEpilogue ++ (abortEpilogue ++ debugBodyEvents))} := by
        simp [compile, hE, hd, hab, hdbg, List.append_assoc]
      rw [hc] at h
      cases h
      exact ⟨hd, s.events, abortEpilogue ++ debugBodyEvents, by simp⟩

/-- A number already in the `i8` range is fixed by `wrap8`. -/
theorem wrap8_eq_self (x : Int) (h1 : -128 ≤ x) (h2 : x ≤ 127) : wrap8 x = x := by
  unfold wrap8; omega

/-- C1: the optimizer never fails — `optimize` (the fold of
`InstructionList::push`) is a total function returning an output
sequence for every input, including sequences with unbalanced
`BeginLoop`/`EndLoop` delimiters, whose imbalance simply passes
through.  (The totality content is the termination of the `push`
recursion, established by `pushF_adequate` over the measure
`pushMeasure`.) -/
theorem optimizer_total :
    (∀ input : List BfInstruction, ∃ output, optimize input = output) ∧
    optimize [EndLoop] = [EndLoop] ∧ optimize [BeginLoop] = [BeginLoop] ∧
    optimize [EndLoop, EndLoop, BeginLoop] = [EndLoop, EndLoop] :=
  ⟨fun _ => ⟨_, rfl⟩, by decide, by decide, by decide⟩

/-- C2 counterexample: optimizing `[AddValue 1, AddValue (-1)]` yields
the empty sequence, not the single instruction `[AddValue (1 + -1)]` =
`[AddValue 0]` that the claim as stated asserts: the combined
`AddValue 0` is itself dropped. -/
theorem optimize_addValue_cancel_counterexample :
    optimize [AddValue 1, AddValue (-1)] = [] ∧
    optimize [AddValue 1, AddValue (-1)] ≠ [AddValue (1 + -1)] := by decide

/-- C2 (amended): for 8-bit signed payloads `a` and `b`, optimizing
`[AddValue a, AddValue b]` yields `[AddValue (a+b)]` with the sum taken
8-bit-wrapped — except that when the wrapped sum is zero the combined
instruction is dropped and the output is empty. -/
theorem optimize_addValue_pair (a b : Int) (ha1 : -128 ≤ a) (ha2 : a ≤ 127)
    (hb1 : -128 ≤ b) (hb2 : b ≤ 127) :
    optimize [AddValue a, AddValue b] =
      if wrap8 (a + b) = 0 then [] else [AddValue (wrap8 (a + b))] := by
  show (push (push ⟨[], 0⟩ (AddValue a)) (AddValue b)).list.reverse = _
  rcases eq_or_ne a 0 with rfl | ha0
  · rw [push_av_zero]
    rcases eq_or_ne b 0 with rfl | hb0
    · rw [push_av_zero]; decide
    · have hpb : push ⟨[], 0⟩ (AddValue b) = ⟨[AddValue b], 0⟩ := by
        rw [push_zero_eq, if_neg (by simpa using hb0)]
      rw [hpb]
      simp [wrap8_eq_self b hb1 hb2, hb0]
  · have hpa : push ⟨[], 0⟩ (AddValue a) = ⟨[AddValue a], 0⟩ := by
      rw [push_zero_eq, if_neg (by simpa using ha0)]
    rw [hpa]
    rcases eq_or_ne b 0 with rfl | hb0
    · rw [push_av_zero]
      simp [wrap8_eq_self a ha1 ha2, ha0]
    · rw [push_av_av _ _ _ hb0]
      rcases eq_or_ne (wrap8 (a + b)) 0 with hz | hz
      · rw [hz, push_av_zero]; simp [hz]
      · have hp2 : push ⟨[], 0⟩ (AddValue (wrap8 (a + b))) = ⟨[AddValue (wrap8 (a + b))], 0⟩ := by
          rw [push_zero_eq, if_neg (by simpa using hz)]
        rw [hp2, if_neg hz]
        rfl

/-- C2 witness: the amended statement at `a = b = 100`, where the
wrapped sum is `-56`. -/
theorem optimize_addValue_pair_witness :
    optimize [AddValue 100, AddValue 100]
      = if wrap8 (100 + 100) = 0 then [] else [AddValue (wrap8 (100 + 100))] :=
  optimize_addValue_pair 100 100 (by decide) (by decide) (by decide) (by decide)

/-- C3: whenever the two most recently emitted instructions are
`BeginLoop` then `AddValue v` with `v` odd, pushing `EndLoop` replaces
all three by a pushed `SetValue 0`; the rule is keyed on parity, not
magnitude, firing for `AddValue 3` and for negative odd payloads
exactly as for `AddValue 1`. -/
theorem odd_loop_rule :
    (∀ (v : Int) (rest : List BfInstruction), v % 2 ≠ 0 →
        push ⟨AddValue v :: BeginLoop :: rest, 0⟩ EndLoop = push ⟨rest, 0⟩ (SetValue 0)) ∧
    optimize [BeginLoop, AddValue 1, EndLoop] = [SetValue 0] ∧
    optimize [BeginLoop, AddValue 3, EndLoop] = [SetValue 0] ∧
    optimize [BeginLoop, AddValue (-3), EndLoop] = [SetValue 0] :=
  ⟨fun v rest hv => push_odd_loop v rest hv, by decide, by decide, by decide⟩

/-- C3 witness: the rule fires for `AddValue 3`. -/
theorem odd_loop_rule_witness :
    push ⟨[AddValue 3, BeginLoop], 0⟩ EndLoop = push ⟨[], 0⟩ (SetValue 0) ∧
    optimize [BeginLoop, AddValue 3, EndLoop] = [SetValue 0] :=
  ⟨odd_loop_rule.1 3 [] (by decide), odd_loop_rule.2.2.1⟩

/-- C4: the optimizer is idempotent — re-optimizing the output of
`optimize` returns it unchanged, for every input sequence. -/
theorem optimize_idempotent (v : List BfInstruction) :
    optimize (optimize v) = optimize v := by
  have hc : canonR ((v.foldl push ⟨[], 0⟩).list) := canonR_foldl v ⟨[], 0⟩ trivial
  show (((v.foldl push ⟨[], 0⟩).list.reverse).foldl push ⟨[], 0⟩).list.reverse
      = (v.foldl push ⟨[], 0⟩).list.reverse
  rw [foldl_push_of_canonR _ hc]

/-- C5: pushing `BeginLoop` when the last emitted instruction is
`SetValue 0` or `EndLoop` enters suppression mode (depth 1, nothing
emitted); while suppressed, nested `BeginLoop`s increment and
`EndLoop`s decrement the depth and every instruction is discarded until
the matching `EndLoop` is discarded too; in particular optimizing
`[SetValue 0, BeginLoop, AddValue 1, EndLoop]` yields `[SetValue 0]`,
optimizing `[EndLoop, BeginLoop]` yields `[EndLoop]`, and a nested dead
loop is elided whole. -/
theorem suppression_mode :
    (∀ l : List BfInstruction, push ⟨SetValue 0 :: l, 0⟩ BeginLoop = ⟨SetValue 0 :: l, 1⟩) ∧
    (∀ l : List BfInstruction, push ⟨EndLoop :: l, 0⟩ BeginLoop = ⟨EndLoop :: l, 1⟩) ∧
    (∀ (l : List BfInstruction) (d : Nat) (insn : BfInstruction),
        push ⟨l, d + 1⟩ insn =
          ⟨l, match insn with | BeginLoop => d + 2 | EndLoop => d | _ => d + 1⟩) ∧
    optimize [SetValue 0, BeginLoop, AddValue 1, EndLoop] = [SetValue 0] ∧
    optimize [EndLoop, BeginLoop] = [EndLoop] ∧
    optimize [SetValue 0, BeginLoop, BeginLoop, EndLoop, EndLoop, Output]
      = [SetValue 0, Output] :=
  ⟨push_sv0_bl, push_el_bl, push_supp, by decide, by decide, by decide⟩

/-- C6: when the generator meets an `EndLoop` with an empty
loop-context stack — equivalently, when some prefix of the instruction
sequence closes more loops than it opens — `compile` fails fatally,
and its trace at that moment contains no return instruction: the
compilation aborts before any epilogue is emitted. -/
theorem endLoop_underflow_fatal (m : BfMachine)
    (h : ∃ k, countBegin (m.instructions.take k) < countEnd (m.instructions.take k)) :
    ∃ t, compile m = .error t ∧ Emit.ret ∉ t.events :=
  compile_excess m h

/-- C6 witness: compiling the single instruction `EndLoop` aborts
fatally with no `ret` emitted. -/
theorem endLoop_underflow_fatal_witness :
    ∃ t, compile ⟨64, [EndLoop], .Undefined, false⟩ = .error t ∧ Emit.ret ∉ t.events :=
  endLoop_underflow_fatal ⟨64, [EndLoop], .Undefined, false⟩ ⟨1, by decide⟩

/-- C7: for every input sequence, `AddValue 0` never appears in the
optimizer's output. -/
theorem no_addValue_zero_in_output (input : List BfInstruction) :
    AddValue 0 ∉ optimize input := by
  intro hmem
  exact canonR_no_av0 _ (canonR_foldl input ⟨[], 0⟩ trivial) (by simpa [optimize] using hmem)

/-- C7 witness: the invariant at a concrete input that tries to sneak
an `AddValue 0` in directly and by cancellation. -/
theorem no_addValue_zero_in_output_witness :
    AddValue 0 ∉ optimize [AddValue 0, AddValue 1, AddValue (-1), SetValue 3] :=
  no_addValue_zero_in_output [AddValue 0, AddValue 1, AddValue (-1), SetValue 3]

/-- C8: pushing `AddValue v` (v ≠ 0) right after an emitted `EndLoop`
leaves the `EndLoop` and emits `SetValue v` in place of the add, and
pushing `SetValue 0` right after an emitted `EndLoop` drops the
incoming instruction; in particular optimizing `[EndLoop, AddValue 5]`
yields `[EndLoop, SetValue 5]` and optimizing `[EndLoop, SetValue 0]`
yields `[EndLoop]`.  (The emitted list is kept most recent first, so
`SetValue v :: EndLoop :: rest` reads `..., EndLoop, SetValue v` in
source order.) -/
theorem endLoop_addValue_rule :
    (∀ (v : Int) (rest : List BfInstruction), v ≠ 0 →
        push ⟨EndLoop :: rest, 0⟩ (AddValue v) = ⟨SetValue v :: EndLoop :: rest, 0⟩) ∧
    (∀ rest : List BfInstruction,
        push ⟨EndLoop :: rest, 0⟩ (SetValue 0) = ⟨EndLoop :: rest, 0⟩) ∧
    optimize [EndLoop, AddValue 5] = [EndLoop, SetValue 5] ∧
    optimize [EndLoop, SetValue 0] = [EndLoop] := by
  refine ⟨fun v rest hv => ?_, push_el_sv_zero, by decide, by decide⟩
  rw [push_el_av _ _ hv, push_el_sv _ _ hv]

/-- C8 witness: the rule at payload 5 over the singleton emitted list. -/
theorem endLoop_addValue_rule_witness :
    push ⟨[EndLoop], 0⟩ (AddValue 5) = ⟨[SetValue 5, EndLoop], 0⟩ ∧
    push ⟨[EndLoop], 0⟩ (SetValue 0) = ⟨[EndLoop], 0⟩ :=
  ⟨endLoop_addValue_rule.1 5 [] (by decide), endLoop_addValue_rule.2.1 []⟩

/-- C9 counterexample: with capacity `3221225472` (between `2^31` and
`2^32`), the index `2147483648` is reachable under the `Wrap` policy
(one move from the initial index 0), yet executing
`AddPointer(capacity)` from it yields `1073741824`, not the same index:
the 32-bit add wraps before the unsigned remainder, so
`capacity mod capacity == 0` does not describe the generated code for
such capacities. -/
theorem wrap_addPointer_capacity_counterexample :
    runWrapIndex 3221225472 [2147483648] = 2147483648 ∧
    wrapIndexStep 3221225472 2147483648 3221225472 ≠ 2147483648 ∧
    wrapIndexStep 3221225472 2147483648 3221225472 = 1073741824 := by decide

/-- C9 (amended): under the `Wrap` policy the generated code reduces
the index by an unsigned remainder against the capacity after every
pointer move (the lowering emits exactly `load, add, urem, store,
getelementptr, store`), and executing `AddPointer(capacity)` leaves an
in-range index unchanged provided the capacity is at most `2^31`, so
that the 32-bit add cannot wrap; for larger capacities the wrap can
change the index. -/
theorem wrap_addPointer_capacity (cap idx : Nat) (hpos : 0 < cap)
    (hcap : cap ≤ 2 ^ 31) (hidx : idx < cap) :
    wrapIndexStep cap idx (cap : Int) = idx ∧
    (∀ (m : BfMachine) (s : CompileState) (w : Int),
        m.memory_overflow = .Wrap → m.emit_debug_log = false →
        s.loop_abort_depth = 0 →
        stepInsn m s (AddPointer w) =
          .ok {s with events := s.events ++ [.load, .add, .urem, .store, .gep, .store]}) := by
  constructor
  · unfold wrapIndexStep
    have h1 : ((cap : Int) % 4294967296).toNat = cap := by omega
    rw [h1]
    have h2 : idx + cap < 4294967296 := by omega
    rw [Nat.mod_eq_of_lt h2]
    have h3 : cap % 4294967296 = cap := Nat.mod_eq_of_lt (by omega)
    rw [h3, Nat.add_mod_right, Nat.mod_eq_of_lt hidx]
  · intro m s w hpol hdbg hd
    rw [stepInsn_depth_zero _ _ _ hd]
    simp [emitInsn, hpol, hdbg, debugCallEvents, apDebugEvents]

/-- C9 witness: the amended statement with the default capacity 4096 at
index 5, and the `Wrap` lowering shape at a concrete machine and
state. -/
theorem wrap_addPointer_capacity_witness :
    wrapIndexStep 4096 5 4096 = 5 ∧
    stepInsn ⟨4096, [], .Wrap, false⟩ initState (AddPointer 7) =
      .ok {initState with
            events := initState.events ++ [.load, .add, .urem, .store, .gep, .store]} :=
  ⟨(wrap_addPointer_capacity 4096 5 (by decide) (by decide) (by decide)).1,
   (wrap_addPointer_capacity 4096 5 (by decide) (by decide) (by decide)).2
     ⟨4096, [], .Wrap, false⟩ initState 7 rfl rfl rfl⟩

/-- C10: `loop_abort_depth` stays 0 through every generator step that
starts at 0 (the skipping branch is unreachable), and every successful
compilation — including sequences ending in a dangling unmatched
`BeginLoop` — ends at depth 0 with the normal success epilogue (load
the current cell, call `free`, return the value) in its trace. -/
theorem generator_success_epilogue (m : BfMachine) :
    (∀ (s : CompileState) (insn : BfInstruction) (t : CompileState),
        s.loop_abort_depth = 0 → stepInsn m s insn = .ok t → t.loop_abort_depth = 0) ∧
    (∀ r : CompileState, compile m = .ok r →
        r.loop_abort_depth = 0 ∧ ∃ pre post, r.events = pre ++ successEpilogue ++ post) := by
  constructor
  · intro s insn t hd hok
    rcases stepInsn_char m s insn hd with ⟨_, _, herr⟩ | ⟨_, herr⟩ | ⟨t', hok', _, htd, _⟩
    · rw [herr] at hok; simp at hok
    · rw [herr] at hok; simp at hok
    · rw [hok'] at hok
      cases Except.ok.inj hok
      exact htd
  · intro r h
    exact compile_ok_epilogue m r h

/-- C10 witness: compiling a dangling unmatched `BeginLoop` succeeds
and the trace contains the success epilogue. -/
theorem generator_success_epilogue_witness :
    ∃ r, compile ⟨64, [BeginLoop], .Undefined, false⟩ = .ok r ∧
      r.loop_abort_depth = 0 ∧ ∃ pre post, r.events = pre ++ successEpilogue ++ post :=
  ⟨_, rfl, (generator_success_epilogue ⟨64, [BeginLoop], .Undefined, false⟩).2 _ rfl⟩

end LlvmBrainfuck
